import Mathlib

/-!
Verification development for the lexadvisor repository.

The repository is a legal-assistance chat web application.  This file gives a
shallow embedding of the parts of the code that the specification's claims are
about:

* the incremental-response stream parser of the chat view (`sendMessage`,
  src/unnamed/part_000): byte chunks are decoded, buffered, split on newlines,
  and each `data:` line is JSON-parsed to extract a text delta which is
  appended to an accumulating assistant message;
* the HTTP status classification performed before the stream is read;
* the user-administration role-change handler (`handleRoleChange`);
* the database schema and row-level-security policies of the migration file
  (user_roles, legal_documents visibility, conversations/messages cascade);
* the document upload handler (`handleUpload`, src/unnamed/part_001).

Strings are modelled as `List Char` (the `TextDecoder` reassembles split
multi-byte UTF-8 sequences statefully, so at the level the parser sees, the
input is a sequence of character chunks).  The browser's `JSON.parse` is
modelled by an executable JSON reader `jsonParse` below; the parsed value is
only ever consulted through the path `choices?.[0]?.delta?.content`.
-/

namespace LexAdvisor

/-! ### Character-list utilities modelling JS string operations -/

/-- Model of the whitespace class used by `String.prototype.trim`
(the common cases: space, tab, newline, carriage return, form feed,
vertical tab). -/
def jsWhitespace (c : Char) : Bool :=
  c == ' ' || c == '\t' || c == '\n' || c == '\r' || c == '\x0c' || c == '\x0b'

/-- Model of `s.trim()`: drop leading and trailing whitespace. -/
def trimChars (s : List Char) : List Char :=
  ((s.dropWhile jsWhitespace).reverse.dropWhile jsWhitespace).reverse

/-- Model of the statement `if (line.endsWith('\r')) line = line.slice(0, -1)`. -/
def stripCR (l : List Char) : List Char :=
  if l.getLast? = some '\r' then l.dropLast else l

/-- Split a buffer at its first newline, as done by
`buffer.indexOf('\n')` / `buffer.slice`: returns the part before the first
`'\n'` and the part after it, or `none` when the buffer holds no newline. -/
def breakAtNewline : List Char → Option (List Char × List Char)
  | [] => none
  | c :: cs =>
    if c = '\n' then some ([], cs)
    else (breakAtNewline cs).map (fun p => (c :: p.1, p.2))

theorem breakAtNewline_eq_none {b : List Char} (h : '\n' ∉ b) :
    breakAtNewline b = none := by
  induction b with
  | nil => rfl
  | cons c cs ih =>
    simp only [List.mem_cons, not_or] at h
    have hc : ¬ c = '\n' := fun hcn => h.1 hcn.symm
    rw [breakAtNewline, if_neg hc, ih h.2]
    rfl

theorem breakAtNewline_some_shape {b l r : List Char}
    (h : breakAtNewline b = some (l, r)) : b = l ++ '\n' :: r ∧ '\n' ∉ l := by
  induction b generalizing l r with
  | nil => simp [breakAtNewline] at h
  | cons c cs ih =>
    by_cases hc : c = '\n'
    · subst hc
      rw [breakAtNewline, if_pos rfl] at h
      injection h with h
      obtain ⟨h1, h2⟩ := Prod.mk.injEq .. ▸ h
      subst h1; subst h2
      simp
    · rw [breakAtNewline, if_neg hc] at h
      cases hb : breakAtNewline cs with
      | none => rw [hb] at h; simp at h
      | some p =>
        rw [hb] at h
        simp only [Option.map_some', Option.some.injEq] at h
        obtain ⟨hshape, hnl⟩ := ih (l := p.1) (r := p.2) (by rw [hb])
        have h1 : c :: p.1 = l := congrArg Prod.fst h
        have h2 : p.2 = r := congrArg Prod.snd h
        subst h2
        rcases l with _ | ⟨x, xs⟩
        · simp at h1
        · simp only [List.cons.injEq] at h1
          obtain ⟨hx, hxs⟩ := h1
          subst hx; subst hxs
          constructor
          · simp [hshape]
          · simp only [List.mem_cons, not_or]
            exact ⟨fun hx' => hc hx'.symm, hnl⟩

theorem breakAtNewline_of_no_newline {l : List Char} (hl : '\n' ∉ l)
    (r : List Char) : breakAtNewline (l ++ '\n' :: r) = some (l, r) := by
  induction l with
  | nil => simp [breakAtNewline]
  | cons c cs ih =>
    simp only [List.mem_cons, not_or] at hl
    have hc : ¬ c = '\n' := fun hcn => hl.1 hcn.symm
    rw [List.cons_append, breakAtNewline, if_neg hc, ih hl.2]
    rfl

theorem breakAtNewline_some_length {b l r : List Char}
    (h : breakAtNewline b = some (l, r)) : r.length < b.length := by
  obtain ⟨hshape, -⟩ := breakAtNewline_some_shape h
  subst hshape
  simp only [List.length_append, List.length_cons]
  omega

/-! ### A model of `JSON.parse`

The browser's `JSON.parse` is external to the repository; the executable
reader below accepts the strict JSON grammar (except `\uXXXX` surrogate
pairs, which are mapped code-unit-wise, a case no claim depends on).  The
numeric value of a number literal is never consulted by the delta-extraction
path, so number tokens keep their lexeme. -/

inductive Json where
  | null
  | boolean (b : Bool)
  | num (lexeme : List Char)
  | str (s : List Char)
  | arr (elems : List Json)
  | obj (fields : List (List Char × Json))

/-- Whitespace accepted between JSON tokens. -/
def jsonWs (c : Char) : Bool :=
  c == ' ' || c == '\t' || c == '\n' || c == '\r'

def skipWsL (cs : List Char) : List Char := cs.dropWhile jsonWs

def isDigitChar (c : Char) : Bool := '0' ≤ c && c ≤ '9'

/-- Consume an expected literal keyword tail. -/
def dropLit (w cs : List Char) : Option (List Char) :=
  if cs.take w.length = w then some (cs.drop w.length) else none

def hexDigitVal (c : Char) : Option Nat :=
  if isDigitChar c then some (c.toNat - 48)
  else if 'a' ≤ c && c ≤ 'f' then some (c.toNat - 87)
  else if 'A' ≤ c && c ≤ 'F' then some (c.toNat - 55)
  else none

/-- Read the body of a JSON string after the opening quote; returns the
decoded content and the remainder after the closing quote. -/
def parseStringBody (fuel : Nat) (cs : List Char) :
    Option (List Char × List Char) :=
  match fuel with
  | 0 => none
  | fuel + 1 =>
    match cs with
    | [] => none
    | c :: rest =>
      if c = '"' then some ([], rest)
      else if c = '\\' then
        match rest with
        | [] => none
        | e :: rest2 =>
          if e = 'u' then
            match rest2 with
            | h1 :: h2 :: h3 :: h4 :: rest3 =>
              match hexDigitVal h1, hexDigitVal h2, hexDigitVal h3, hexDigitVal h4 with
              | some v1, some v2, some v3, some v4 =>
                (parseStringBody fuel rest3).map
                  (fun p => (Char.ofNat (((v1 * 16 + v2) * 16 + v3) * 16 + v4) :: p.1, p.2))
              | _, _, _, _ => none
            | _ => none
          else
            let esc : Option Char :=
              if e = '"' then some '"'
              else if e = '\\' then some '\\'
              else if e = '/' then some '/'
              else if e = 'n' then some '\n'
              else if e = 't' then some '\t'
              else if e = 'r' then some '\r'
              else if e = 'b' then some '\x08'
              else if e = 'f' then some '\x0c'
              else none
            match esc with
            | none => none
            | some ec => (parseStringBody fuel rest2).map (fun p => (ec :: p.1, p.2))
      else (parseStringBody fuel rest).map (fun p => (c :: p.1, p.2))

/-- Lex the fractional part of a JSON number (possibly empty). -/
def parseFracRest (cs : List Char) : Option (List Char × List Char) :=
  match cs with
  | '.' :: rest =>
    let ds := rest.takeWhile isDigitChar
    if ds = [] then none else some ('.' :: ds, rest.drop ds.length)
  | _ => some ([], cs)

/-- Lex the exponent part of a JSON number (possibly empty). -/
def parseExpRest (cs : List Char) : Option (List Char × List Char) :=
  match cs with
  | c :: rest =>
    if c = 'e' || c = 'E' then
      let sgnAndRest : List Char × List Char :=
        match rest with
        | s :: r2 => if s = '+' || s = '-' then ([s], r2) else ([], s :: r2)
        | [] => ([], [])
      let ds := sgnAndRest.2.takeWhile isDigitChar
      if ds = [] then none
      else some (c :: (sgnAndRest.1 ++ ds), sgnAndRest.2.drop ds.length)
    else some ([], c :: rest)
  | [] => some ([], [])

/-- Lex a JSON number starting at `cs` (first char is `-` or a digit). -/
def parseNumToken (cs : List Char) : Option (Json × List Char) :=
  let sgnAndRest : List Char × List Char :=
    match cs with
    | '-' :: r => (['-'], r)
    | _ => ([], cs)
  let intPart := sgnAndRest.2.takeWhile isDigitChar
  if intPart = [] then none
  else if 1 < intPart.length ∧ intPart.head? = some '0' then none
  else
    match parseFracRest (sgnAndRest.2.drop intPart.length) with
    | none => none
    | some (frac, cs2) =>
      match parseExpRest cs2 with
      | none => none
      | some (ex, cs3) =>
        some (Json.num (sgnAndRest.1 ++ intPart ++ frac ++ ex), cs3)

mutual

/-- Read one JSON value (after skipping leading whitespace). -/
def parseValue (fuel : Nat) (cs0 : List Char) : Option (Json × List Char) :=
  match fuel with
  | 0 => none
  | fuel + 1 =>
    match skipWsL cs0 with
    | [] => none
    | c :: rest =>
      if c = '"' then
        (parseStringBody fuel rest).map (fun p => (Json.str p.1, p.2))
      else if c = '\x7b' then
        match skipWsL rest with
        | '\x7d' :: r2 => some (Json.obj [], r2)
        | _ => parseObjRest fuel rest []
      else if c = '[' then
        match skipWsL rest with
        | ']' :: r2 => some (Json.arr [], r2)
        | _ => parseArrRest fuel rest []
      else if c = 't' then
        (dropLit ['r', 'u', 'e'] rest).map (fun r => (Json.boolean true, r))
      else if c = 'f' then
        (dropLit ['a', 'l', 's', 'e'] rest).map (fun r => (Json.boolean false, r))
      else if c = 'n' then
        (dropLit ['u', 'l', 'l'] rest).map (fun r => (Json.null, r))
      else if c = '-' || isDigitChar c then
        parseNumToken (c :: rest)
      else none

/-- Read the elements of a non-empty JSON array after the opening bracket. -/
def parseArrRest (fuel : Nat) (cs : List Char) (acc : List Json) :
    Option (Json × List Char) :=
  match fuel with
  | 0 => none
  | fuel + 1 =>
    match parseValue fuel cs with
    | none => none
    | some (v, cs1) =>
      match skipWsL cs1 with
      | ',' :: cs2 => parseArrRest fuel cs2 (acc ++ [v])
      | ']' :: cs2 => some (Json.arr (acc ++ [v]), cs2)
      | _ => none

/-- Read the members of a non-empty JSON object after the opening brace. -/
def parseObjRest (fuel : Nat) (cs : List Char) (acc : List (List Char × Json)) :
    Option (Json × List Char) :=
  match fuel with
  | 0 => none
  | fuel + 1 =>
    match skipWsL cs with
    | '"' :: cs1 =>
      match parseStringBody fuel cs1 with
      | none => none
      | some (k, cs2) =>
        match skipWsL cs2 with
        | ':' :: cs3 =>
          match parseValue fuel cs3 with
          | none => none
          | some (v, cs4) =>
            match skipWsL cs4 with
            | ',' :: cs5 => parseObjRest fuel cs5 (acc ++ [(k, v)])
            | '\x7d' :: cs5 => some (Json.obj (acc ++ [(k, v)]), cs5)
            | _ => none
        | _ => none
    | _ => none

end

/-- Model of `JSON.parse(jsonStr)`: the whole input must be one JSON value
surrounded only by whitespace.  The fuel bound `2 * length + 4` dominates the
parse-call depth, which grows by at most two per input character. -/
def jsonParse (cs : List Char) : Option Json :=
  match parseValue (2 * cs.length + 4) cs with
  | some (j, rest) => if skipWsL rest = [] then some j else none
  | none => none

/-- Look up an object key.  `JSON.parse` keeps the last of duplicate keys,
hence the search over the reversed field list. -/
def objLookup (fields : List (List Char × Json)) (k : List Char) : Option Json :=
  (fields.reverse.find? (fun p => p.1 == k)).map (fun p => p.2)

/-- Model of `j?.[i]` on a parsed value: only arrays index, anything else
gives `undefined`. -/
def jsonIndex (j : Json) (i : Nat) : Option Json :=
  match j with
  | .arr xs => xs[i]?
  | _ => none

/-- Model of `j?.k` on a parsed value: only objects have members. -/
def jsonField (j : Json) (k : List Char) : Option Json :=
  match j with
  | .obj fs => objLookup fs k
  | _ => none

/-- Model of `parsed.choices?.[0]?.delta?.content as string | undefined`:
the optional-chained path, restricted to string results (per the source's
type ascription; the emitted delta is always a string in the wire format). -/
def deltaContent (j : Json) : Option (List Char) :=
  match jsonField j ("choices".toList) with
  | none => none
  | some ch =>
    match jsonIndex ch 0 with
    | none => none
    | some c0 =>
      match jsonField c0 ("delta".toList) with
      | none => none
      | some dj =>
        match jsonField dj ("content".toList) with
        | some (Json.str s) => some s
        | _ => none

/-! ### The per-line step of the stream parser -/

/-- Outcome of handling one complete (CR-stripped) line inside the
`while ((newlineIndex = buffer.indexOf('\n')) !== -1)` loop of `sendMessage`. -/
inductive LineResult where
  | skip
  | done
  | noContent
  | fail
  | delta (d : List Char)
deriving DecidableEq, Repr

def dataMark : List Char := "data: ".toList

def sentinelChars : List Char := "[DONE]".toList

/-- Classification of one complete line, mirroring the body of the inner
loop: comment/blank lines and non-`data:` lines are skipped; the payload
after the six-character marker is trimmed; the sentinel `[DONE]` ends
processing; otherwise the payload is JSON-parsed and the delta extracted
(`if (content)` makes an empty or missing delta a silent no-op; a parse
exception is the `fail` outcome handled by the catch block). -/
def classifyLine (line : List Char) : LineResult :=
  if line.head? = some ':' ∨ trimChars line = [] then .skip
  else if ¬ line.take 6 = dataMark then .skip
  else
    let jsonStr := trimChars (line.drop 6)
    if jsonStr = sentinelChars then .done
    else
      match jsonParse jsonStr with
      | none => .fail
      | some j =>
        match deltaContent j with
        | some d => if d = [] then .noContent else .delta d
        | none => .noContent

/-! ### The stream-machine state and the inner loop -/

/-- State of the stream read loop: the rolling undecoded-line buffer, the
accumulated assistant text (`assistantContent`), and the sequence of
accumulated-text snapshots handed to `setMessages` so far. -/
structure StreamState where
  buffer : List Char
  assistant : List Char
  emitted : List (List Char)
deriving DecidableEq, Repr

/-- Fuel-indexed form of the inner `while` loop of `sendMessage`.  Every
iteration that continues removes at least one character (a full line and its
newline) from the buffer, so any fuel of at least the buffer length computes
the loop's fixpoint; `procBuf` below instantiates the fuel accordingly.
Per line: strip a trailing CR; skip comments/blanks and non-data lines; stop
on the sentinel; on a delta, extend `assistantContent` and emit the
accumulated text; on a JSON-parse failure, push the (CR-stripped) line back
with its newline and stop for this chunk. -/
def procBufF : Nat → List Char → List Char → List (List Char) → StreamState
  | 0, b, a, e => ⟨b, a, e⟩
  | fuel + 1, b, a, e =>
    match breakAtNewline b with
    | none => ⟨b, a, e⟩
    | some (rawLine, rest) =>
      match classifyLine (stripCR rawLine) with
      | .skip => procBufF fuel rest a e
      | .noContent => procBufF fuel rest a e
      | .done => ⟨rest, a, e⟩
      | .fail => ⟨stripCR rawLine ++ '\n' :: rest, a, e⟩
      | .delta d => procBufF fuel rest (a ++ d) (e ++ [a ++ d])

/-- The inner line-extraction loop of `sendMessage`, run to completion on the
given buffer. -/
def procBuf (buffer assistant : List Char) (emitted : List (List Char)) :
    StreamState :=
  procBufF buffer.length buffer assistant emitted

theorem procBufF_congr {f1 f2 : Nat} :
    ∀ {b a : List Char} {e : List (List Char)}, b.length ≤ f1 → b.length ≤ f2 →
      procBufF f1 b a e = procBufF f2 b a e := by
  induction f1 generalizing f2 with
  | zero =>
    intro b a e h1 _
    have hb : b = [] := List.length_eq_zero.mp (Nat.le_zero.mp h1)
    subst hb
    cases f2 with
    | zero => rfl
    | succ m => simp [procBufF, breakAtNewline]
  | succ n ih =>
    intro b a e h1 h2
    cases f2 with
    | zero =>
      have hb : b = [] := List.length_eq_zero.mp (Nat.le_zero.mp h2)
      subst hb
      simp [procBufF, breakAtNewline]
    | succ m =>
      cases hbr : breakAtNewline b with
      | none => simp only [procBufF, hbr]
      | some p =>
        obtain ⟨l, r⟩ := p
        have hlen : r.length < b.length := breakAtNewline_some_length hbr
        have hr1 : r.length ≤ n := by omega
        have hr2 : r.length ≤ m := by omega
        simp only [procBufF, hbr]
        split
        all_goals rename_i hc
        all_goals try simp only [hc]
        all_goals exact ih hr1 hr2

/-- Arrival of one decoded chunk in the outer read loop: append to the
buffer, then run the line-extraction loop. -/
def processChunk (st : StreamState) (chunk : List Char) : StreamState :=
  procBuf (st.buffer ++ chunk) st.assistant st.emitted

def initState : StreamState := ⟨[], [], []⟩

/-- The whole stream read loop over a finite sequence of decoded chunks
(reading stops when the transport closes; a trailing undecoded partial line
simply remains in the buffer). -/
def runChunks (chunks : List (List Char)) : StreamState :=
  chunks.foldl processChunk initState

/-! ### Unfolding lemmas for `procBuf` -/

theorem procBuf_no_newline {b a : List Char} {e : List (List Char)}
    (h : breakAtNewline b = none) : procBuf b a e = ⟨b, a, e⟩ := by
  unfold procBuf
  cases hl : b.length with
  | zero => rfl
  | succ n => simp [procBufF, h]

theorem procBuf_step {b a l r : List Char} {e : List (List Char)}
    (h : breakAtNewline b = some (l, r)) :
    procBuf b a e =
      match classifyLine (stripCR l) with
      | .skip => procBuf r a e
      | .noContent => procBuf r a e
      | .done => ⟨r, a, e⟩
      | .fail => ⟨stripCR l ++ '\n' :: r, a, e⟩
      | .delta d => procBuf r (a ++ d) (e ++ [a ++ d]) := by
  have hlen : r.length < b.length := breakAtNewline_some_length h
  unfold procBuf
  cases hl : b.length with
  | zero => omega
  | succ n =>
    have hr : r.length ≤ n := by omega
    simp only [procBufF, h]
    split
    all_goals rename_i hc
    all_goals try simp only [hc]
    all_goals exact procBufF_congr hr le_rfl

theorem procBuf_skip {b a l r : List Char} {e : List (List Char)}
    (h : breakAtNewline b = some (l, r))
    (hc : classifyLine (stripCR l) = .skip) :
    procBuf b a e = procBuf r a e := by
  rw [procBuf_step h, hc]

theorem procBuf_noContent {b a l r : List Char} {e : List (List Char)}
    (h : breakAtNewline b = some (l, r))
    (hc : classifyLine (stripCR l) = .noContent) :
    procBuf b a e = procBuf r a e := by
  rw [procBuf_step h, hc]

theorem procBuf_done {b a l r : List Char} {e : List (List Char)}
    (h : breakAtNewline b = some (l, r))
    (hc : classifyLine (stripCR l) = .done) :
    procBuf b a e = ⟨r, a, e⟩ := by
  rw [procBuf_step h, hc]

theorem procBuf_fail {b a l r : List Char} {e : List (List Char)}
    (h : breakAtNewline b = some (l, r))
    (hc : classifyLine (stripCR l) = .fail) :
    procBuf b a e = ⟨stripCR l ++ '\n' :: r, a, e⟩ := by
  rw [procBuf_step h, hc]

theorem procBuf_delta {b a l r d : List Char} {e : List (List Char)}
    (h : breakAtNewline b = some (l, r))
    (hc : classifyLine (stripCR l) = .delta d) :
    procBuf b a e = procBuf r (a ++ d) (e ++ [a ++ d]) := by
  rw [procBuf_step h, hc]


/-! ### Stream-open status classification (`sendMessage`, before the read loop) -/

def rateLimitText : List Char := "Rate limit exceeded. Please try again later.".toList

def paymentText : List Char := "Payment required. Please add credits to continue.".toList

def genericFailText : List Char := "Failed to get response".toList

/-- Model of the `if (!response.ok)` block of `sendMessage`: `response.ok`
is status 200–299; a non-ok status is mapped to the user-facing message of
the error that is thrown (429 rate limit, 402 payment, otherwise generic). -/
def openFailureText (status : Nat) : Option (List Char) :=
  if 200 ≤ status ∧ status ≤ 299 then none
  else if status = 429 then some rateLimitText
  else if status = 402 then some paymentText
  else some genericFailText

/-- The stream phase of `sendMessage`: the status is classified before any
byte of the body is read; only an ok status reaches the parser loop, and the
parser (`runChunks`) takes no status input at all. -/
def sendMessageStream (status : Nat) (chunks : List (List Char)) :
    Except (List Char) StreamState :=
  match openFailureText status with
  | some m => Except.error m
  | none => Except.ok (runChunks chunks)

theorem openFailureText_of_other {status : Nat}
    (h : ¬ (200 ≤ status ∧ status ≤ 299))
    (h1 : ¬ status = 429) (h2 : ¬ status = 402) :
    openFailureText status = some genericFailText := by
  unfold openFailureText
  rw [if_neg h, if_neg h1, if_neg h2]

theorem openFailureText_total {status : Nat}
    (h : ¬ (200 ≤ status ∧ status ≤ 299)) :
    ∃ m, openFailureText status = some m := by
  unfold openFailureText
  rw [if_neg h]
  by_cases h1 : status = 429
  · rw [if_pos h1]; exact ⟨_, rfl⟩
  · rw [if_neg h1]
    by_cases h2 : status = 402
    · rw [if_pos h2]; exact ⟨_, rfl⟩
    · rw [if_neg h2]; exact ⟨_, rfl⟩

/-- C8: for every non-success status of the stream-open response, the
surfaced message is the rate-limit message iff the status is 429, the
payment message iff the status is 402, and the generic message otherwise;
the three messages are pairwise distinct; and the run aborts with that
message before the byte-stream parser is entered (for any sequence of body
chunks), the parser itself taking no status input. -/
theorem claim8_status_classification (status : Nat)
    (h : ¬ (200 ≤ status ∧ status ≤ 299)) :
    (openFailureText status = some rateLimitText ↔ status = 429) ∧
    (openFailureText status = some paymentText ↔ status = 402) ∧
    (¬ status = 429 → ¬ status = 402 →
      openFailureText status = some genericFailText) ∧
    rateLimitText ≠ paymentText ∧ rateLimitText ≠ genericFailText ∧
    paymentText ≠ genericFailText ∧
    ∀ chunks, ∃ m, openFailureText status = some m ∧
      sendMessageStream status chunks = Except.error m := by
  refine ⟨?_, ?_, fun h1 h2 => openFailureText_of_other h h1 h2,
    by decide, by decide, by decide, ?_⟩
  · constructor
    · intro he
      by_contra h1
      by_cases h2 : status = 402
      · subst h2
        exact absurd he (by decide)
      · rw [openFailureText_of_other h h1 h2] at he
        exact absurd he (by decide)
    · intro h1
      subst h1
      decide
  · constructor
    · intro he
      by_contra h2
      by_cases h1 : status = 429
      · subst h1
        exact absurd he (by decide)
      · rw [openFailureText_of_other h h1 h2] at he
        exact absurd he (by decide)
    · intro h2
      subst h2
      decide
  · intro chunks
    obtain ⟨m, hm⟩ := openFailureText_total h
    refine ⟨m, hm, ?_⟩
    unfold sendMessageStream
    rw [hm]

theorem claim8_witness :
    openFailureText 429 = some rateLimitText ∧
    openFailureText 402 = some paymentText ∧
    openFailureText 500 = some genericFailText := by
  refine ⟨(claim8_status_classification 429 (by decide)).1.mpr rfl,
    (claim8_status_classification 402 (by decide)).2.1.mpr rfl,
    (claim8_status_classification 500 (by decide)).2.2.1 (by decide) (by decide)⟩

/-! ### C2: chunk-boundary invariance for one data line -/

/-- C2: a single well-formed `data:` line (carrying delta `d`), split into
two chunks at an arbitrary offset `k` inside the line, produces exactly the
same final parser state as the line arriving whole; in both cases the one
delta is emitted exactly once. -/
theorem claim2_chunk_boundary (l d : List Char) (k : Nat)
    (hwf : classifyLine (stripCR l) = LineResult.delta d)
    (hnl : '\n' ∉ l) (hk : k ≤ l.length) :
    runChunks [(l ++ ['\n']).take k, (l ++ ['\n']).drop k] =
      runChunks [l ++ ['\n']] ∧
    (runChunks [l ++ ['\n']]).assistant = d ∧
    (runChunks [l ++ ['\n']]).emitted = [d] := by
  have hbrk : breakAtNewline (l ++ ['\n']) = some (l, []) :=
    breakAtNewline_of_no_newline hnl []
  have hc1 : '\n' ∉ (l ++ ['\n']).take k := by
    intro hm
    rw [List.take_append_of_le_length hk] at hm
    exact hnl (List.take_subset k l hm)
  have hone : runChunks [l ++ ['\n']] = ⟨[], d, [d]⟩ := by
    show procBuf ([] ++ (l ++ ['\n'])) [] [] = _
    rw [List.nil_append, procBuf_delta hbrk hwf]
    simp [procBuf, procBufF]
  have htwo : runChunks [(l ++ ['\n']).take k, (l ++ ['\n']).drop k]
      = ⟨[], d, [d]⟩ := by
    have h1 : processChunk initState ((l ++ ['\n']).take k)
        = ⟨(l ++ ['\n']).take k, [], []⟩ := by
      show procBuf ([] ++ (l ++ ['\n']).take k) [] [] = _
      rw [List.nil_append]
      exact procBuf_no_newline (breakAtNewline_eq_none hc1)
    have h2 : runChunks [(l ++ ['\n']).take k, (l ++ ['\n']).drop k]
        = processChunk (processChunk initState ((l ++ ['\n']).take k))
            ((l ++ ['\n']).drop k) := rfl
    rw [h2, h1]
    show procBuf ((l ++ ['\n']).take k ++ (l ++ ['\n']).drop k) [] [] = _
    rw [List.take_append_drop, procBuf_delta hbrk hwf]
    simp [procBuf, procBufF]
  exact ⟨htwo.trans hone.symm, by rw [hone], by rw [hone]⟩

def claim2Line : List Char :=
  "data: \x7b\"choices\":[\x7b\"delta\":\x7b\"content\":\"Hi\"\x7d\x7d]\x7d".toList

theorem claim2_witness :
    runChunks [(claim2Line ++ ['\n']).take 11, (claim2Line ++ ['\n']).drop 11] =
      runChunks [claim2Line ++ ['\n']] ∧
    (runChunks [claim2Line ++ ['\n']]).assistant = "Hi".toList ∧
    (runChunks [claim2Line ++ ['\n']]).emitted = ["Hi".toList] :=
  claim2_chunk_boundary claim2Line ("Hi".toList) 11 (by decide) (by decide)
    (by decide)

/-! ### C9: comment and blank lines are no-ops -/

/-- C9: a comment line (first character `:`) or a blank line at the front of
the remaining stream is consumed without emitting a delta and without
changing the accumulated assistant text: processing continues on the rest of
the buffer in the identical state. -/
theorem claim9_skip_lines (a l rest : List Char) (e : List (List Char))
    (hskip : (stripCR l).head? = some ':' ∨ trimChars (stripCR l) = [])
    (hnl : '\n' ∉ l) :
    procBuf (l ++ '\n' :: rest) a e = procBuf rest a e := by
  have hc : classifyLine (stripCR l) = .skip := by
    unfold classifyLine
    rw [if_pos hskip]
  exact procBuf_skip (breakAtNewline_of_no_newline hnl rest) hc

theorem claim9_witness :
    procBuf (": keep-alive".toList ++ '\n' :: claim2Line ++ ['\n'])
      "So far".toList ["So far".toList] =
    procBuf (claim2Line ++ ['\n']) "So far".toList ["So far".toList] ∧
    procBuf ("   ".toList ++ '\n' :: claim2Line ++ ['\n']) [] [] =
    procBuf (claim2Line ++ ['\n']) [] [] := by
  refine ⟨?_, ?_⟩
  · exact claim9_skip_lines ("So far".toList) (": keep-alive".toList)
      (claim2Line ++ ['\n']) ["So far".toList] (by decide) (by decide)
  · exact claim9_skip_lines [] ("   ".toList) (claim2Line ++ ['\n']) []
      (by decide) (by decide)

/-! ### Line decomposition of a buffer

To reason about arbitrary chunkings we decompose a byte sequence into its
complete (newline-terminated) lines and its trailing partial line, and
express the effect of the loop as folds over the complete lines. -/

/-- The complete (newline-terminated) lines of a buffer, without their
newlines, in order. -/
def completeLines (b : List Char) : List (List Char) :=
  match h : breakAtNewline b with
  | none => []
  | some (l, r) => l :: completeLines r
termination_by b.length
decreasing_by exact breakAtNewline_some_length h

/-- The trailing partial line of a buffer: everything after its last
newline (the whole buffer when it has none). -/
def pendingTail (b : List Char) : List Char :=
  match h : breakAtNewline b with
  | none => b
  | some (_, r) => pendingTail r
termination_by b.length
decreasing_by exact breakAtNewline_some_length h

/-- Rebuild a byte sequence from newline-terminated lines. -/
def joinNL (ls : List (List Char)) : List Char :=
  (ls.map (fun l => l ++ ['\n'])).flatten

theorem completeLines_none {b : List Char} (h : breakAtNewline b = none) :
    completeLines b = [] := by
  rw [completeLines.eq_def]
  split
  · rfl
  · simp_all

theorem completeLines_some {b l r : List Char}
    (h : breakAtNewline b = some (l, r)) :
    completeLines b = l :: completeLines r := by
  rw [completeLines.eq_def]
  split
  · simp_all
  · rename_i l' r' heq
    rw [h] at heq
    injection heq with heq
    have h1 : l = l' := congrArg Prod.fst heq
    have h2 : r = r' := congrArg Prod.snd heq
    subst h1; subst h2
    rfl

theorem pendingTail_none {b : List Char} (h : breakAtNewline b = none) :
    pendingTail b = b := by
  rw [pendingTail.eq_def]
  split
  · rfl
  · simp_all

theorem pendingTail_some {b l r : List Char}
    (h : breakAtNewline b = some (l, r)) :
    pendingTail b = pendingTail r := by
  rw [pendingTail.eq_def]
  split
  · simp_all
  · rename_i l' r' heq
    rw [h] at heq
    injection heq with heq
    have h2 : r = r' := congrArg Prod.snd heq
    subst h2
    rfl

theorem completeLines_nil : completeLines [] = [] :=
  completeLines_none (b := []) rfl

theorem pendingTail_nil : pendingTail [] = [] :=
  pendingTail_none (b := []) rfl

theorem breakAtNewline_append_some {b l r : List Char}
    (h : breakAtNewline b = some (l, r)) (t : List Char) :
    breakAtNewline (b ++ t) = some (l, r ++ t) := by
  obtain ⟨hshape, hnl⟩ := breakAtNewline_some_shape h
  subst hshape
  rw [List.append_assoc, List.cons_append]
  exact breakAtNewline_of_no_newline hnl (r ++ t)

theorem joinNL_reconstruct_aux :
    ∀ (n : Nat) (b : List Char), b.length ≤ n →
      joinNL (completeLines b) ++ pendingTail b = b := by
  intro n
  induction n with
  | zero =>
    intro b hb
    have hb0 : b = [] := List.length_eq_zero.mp (Nat.le_zero.mp hb)
    subst hb0
    rw [completeLines_nil, pendingTail_nil]
    rfl
  | succ n ih =>
    intro b hb
    cases hbr : breakAtNewline b with
    | none =>
      rw [completeLines_none hbr, pendingTail_none hbr]
      simp [joinNL]
    | some p =>
      obtain ⟨l, r⟩ := p
      have hlen := breakAtNewline_some_length hbr
      have hr : r.length ≤ n := by omega
      obtain ⟨hshape, -⟩ := breakAtNewline_some_shape hbr
      rw [completeLines_some hbr, pendingTail_some hbr]
      calc joinNL (l :: completeLines r) ++ pendingTail r
          = l ++ '\n' :: (joinNL (completeLines r) ++ pendingTail r) := by
            simp [joinNL, List.append_assoc]
        _ = l ++ '\n' :: r := by rw [ih r hr]
        _ = b := hshape.symm

theorem joinNL_reconstruct (b : List Char) :
    joinNL (completeLines b) ++ pendingTail b = b :=
  joinNL_reconstruct_aux b.length b le_rfl

theorem completeLines_append_aux :
    ∀ (n : Nat) (b t : List Char), b.length ≤ n →
      completeLines (b ++ t)
        = completeLines b ++ completeLines (pendingTail b ++ t) ∧
      pendingTail (b ++ t) = pendingTail (pendingTail b ++ t) := by
  intro n
  induction n with
  | zero =>
    intro b t hb
    have hb0 : b = [] := List.length_eq_zero.mp (Nat.le_zero.mp hb)
    subst hb0
    simp [completeLines_nil, pendingTail_nil]
  | succ n ih =>
    intro b t hb
    cases hbr : breakAtNewline b with
    | none =>
      rw [completeLines_none hbr, pendingTail_none hbr]
      simp
    | some p =>
      obtain ⟨l, r⟩ := p
      have hlen := breakAtNewline_some_length hbr
      have hr : r.length ≤ n := by omega
      have hbrt := breakAtNewline_append_some hbr t
      rw [completeLines_some hbrt, completeLines_some hbr,
        pendingTail_some hbrt, pendingTail_some hbr]
      obtain ⟨ih1, ih2⟩ := ih r t hr
      exact ⟨by rw [ih1, List.cons_append], ih2⟩

theorem completeLines_append (b t : List Char) :
    completeLines (b ++ t)
      = completeLines b ++ completeLines (pendingTail b ++ t) :=
  (completeLines_append_aux b.length b t le_rfl).1

theorem pendingTail_append (b t : List Char) :
    pendingTail (b ++ t) = pendingTail (pendingTail b ++ t) :=
  (completeLines_append_aux b.length b t le_rfl).2

theorem completeLines_joinNL :
    ∀ (ls : List (List Char)), (∀ l ∈ ls, '\n' ∉ l) →
      completeLines (joinNL ls) = ls ∧ pendingTail (joinNL ls) = [] := by
  intro ls
  induction ls with
  | nil =>
    intro _
    have h0 : joinNL [] = ([] : List Char) := rfl
    rw [h0, completeLines_nil, pendingTail_nil]
    exact ⟨rfl, rfl⟩
  | cons l ls ih =>
    intro h
    have hjoin : joinNL (l :: ls) = l ++ '\n' :: joinNL ls := by
      simp [joinNL]
    have hnl : '\n' ∉ l := h l (List.mem_cons_self l ls)
    have hbr : breakAtNewline (joinNL (l :: ls)) = some (l, joinNL ls) := by
      rw [hjoin]
      exact breakAtNewline_of_no_newline hnl (joinNL ls)
    obtain ⟨ih1, ih2⟩ := ih (fun x hx => h x (List.mem_cons_of_mem l hx))
    rw [completeLines_some hbr, pendingTail_some hbr, ih1, ih2]
    exact ⟨rfl, rfl⟩

/-! ### Per-line observable effect -/

/-- The delta text a line contributes (empty for non-delta outcomes). -/
def LineResult.deltaText : LineResult → List Char
  | .delta d => d
  | _ => []

/-- Whether a line's outcome emits a snapshot. -/
def LineResult.emits : LineResult → Bool
  | .delta _ => true
  | _ => false

/-- Whether a line lets the loop continue (it is not the sentinel and not a
parse failure). -/
def LineResult.continues : LineResult → Bool
  | .done => false
  | .fail => false
  | _ => true

def lineDelta (l : List Char) : List Char :=
  (classifyLine (stripCR l)).deltaText

def emitsDelta (l : List Char) : Bool :=
  (classifyLine (stripCR l)).emits

def nonBreaking (l : List Char) : Bool :=
  (classifyLine (stripCR l)).continues

/-- Concatenation of the deltas contributed by a list of lines. -/
def deltasJoin (ls : List (List Char)) : List Char :=
  (ls.map lineDelta).flatten

/-- The accumulated-text snapshots emitted while processing the given lines
starting from accumulated text `a`. -/
def snapshotsFrom (a : List Char) : List (List Char) → List (List Char)
  | [] => []
  | l :: ls =>
    if emitsDelta l then
      (a ++ lineDelta l) :: snapshotsFrom (a ++ lineDelta l) ls
    else snapshotsFrom a ls

theorem deltasJoin_cons (l : List Char) (ls : List (List Char)) :
    deltasJoin (l :: ls) = lineDelta l ++ deltasJoin ls := by
  simp [deltasJoin]

theorem deltasJoin_append (xs ys : List (List Char)) :
    deltasJoin (xs ++ ys) = deltasJoin xs ++ deltasJoin ys := by
  simp [deltasJoin]

theorem snapshotsFrom_append (xs : List (List Char)) :
    ∀ (a : List Char) (ys : List (List Char)),
      snapshotsFrom a (xs ++ ys)
        = snapshotsFrom a xs ++ snapshotsFrom (a ++ deltasJoin xs) ys := by
  induction xs with
  | nil => intro a ys; simp [snapshotsFrom, deltasJoin]
  | cons x xs ih =>
    intro a ys
    by_cases hx : emitsDelta x
    · simp only [List.cons_append, snapshotsFrom, if_pos hx, List.append_eq, ih,
        deltasJoin_cons, List.append_assoc]
    · have hlx : lineDelta x = [] := by
        unfold emitsDelta at hx
        unfold lineDelta
        cases hcl : classifyLine (stripCR x) with
        | delta d => rw [hcl] at hx; simp [LineResult.emits] at hx
        | skip => rfl
        | done => rfl
        | noContent => rfl
        | fail => rfl
      simp only [List.cons_append, snapshotsFrom, if_neg hx, List.append_eq, ih,
        deltasJoin_cons, hlx, List.nil_append]


/-! ### Streams in which processing never stalls -/

/-- The lines of a stream prefix acceptable to the loop: every line lets
processing continue, except that the sentinel line may appear as the final
line. -/
inductive OkLines : List (List Char) → Prop where
  | nil : OkLines []
  | consGood {l : List Char} {ls : List (List Char)} :
      nonBreaking l = true → OkLines ls → OkLines (l :: ls)
  | doneLast {l : List Char} :
      classifyLine (stripCR l) = .done → OkLines [l]

/-- A list of lines containing the sentinel. -/
def hasDoneLine (ls : List (List Char)) : Prop :=
  ∃ l ∈ ls, classifyLine (stripCR l) = .done

theorem OkLines.cons_inv {x : List Char} {xs : List (List Char)}
    (h : OkLines (x :: xs)) :
    (nonBreaking x = true ∧ OkLines xs) ∨
    (classifyLine (stripCR x) = .done ∧ xs = []) := by
  cases h with
  | consGood hg hrest => exact Or.inl ⟨hg, hrest⟩
  | doneLast hd => exact Or.inr ⟨hd, rfl⟩

theorem OkLines.append_right :
    ∀ {xs ys : List (List Char)}, OkLines (xs ++ ys) → OkLines ys := by
  intro xs
  induction xs with
  | nil => intro ys h; exact h
  | cons x xs ih =>
    intro ys h
    rw [List.cons_append] at h
    rcases OkLines.cons_inv h with ⟨-, hrest⟩ | ⟨-, hnil⟩
    · exact ih hrest
    · obtain ⟨-, hys⟩ := List.append_eq_nil.mp hnil
      subst hys
      exact .nil

theorem OkLines.append_left :
    ∀ {xs ys : List (List Char)}, OkLines (xs ++ ys) → OkLines xs := by
  intro xs
  induction xs with
  | nil => intro ys _; exact .nil
  | cons x xs ih =>
    intro ys h
    rw [List.cons_append] at h
    rcases OkLines.cons_inv h with ⟨hg, hrest⟩ | ⟨hd, hnil⟩
    · exact .consGood hg (ih hrest)
    · obtain ⟨hxs, -⟩ := List.append_eq_nil.mp hnil
      subst hxs
      exact .doneLast hd

theorem OkLines.done_closes :
    ∀ {xs ys : List (List Char)}, OkLines (xs ++ ys) → hasDoneLine xs →
      ys = [] := by
  intro xs
  induction xs with
  | nil =>
    intro ys _ hd
    obtain ⟨l, hl, -⟩ := hd
    exact absurd hl (List.not_mem_nil l)
  | cons x xs ih =>
    intro ys h hd
    rw [List.cons_append] at h
    rcases OkLines.cons_inv h with ⟨hg, hrest⟩ | ⟨-, hnil⟩
    · obtain ⟨l, hl, hld⟩ := hd
      rcases List.mem_cons.mp hl with rfl | hl2
      · unfold nonBreaking at hg
        rw [hld] at hg
        simp [LineResult.continues] at hg
      · exact ih hrest ⟨l, hl2, hld⟩
    · exact (List.append_eq_nil.mp hnil).2

/-! ### Characterisation of the loop on non-stalling buffers -/

theorem procBuf_main_aux :
    ∀ (n : Nat) (b a : List Char) (e : List (List Char)), b.length ≤ n →
      OkLines (completeLines b) →
      (hasDoneLine (completeLines b) → pendingTail b = []) →
      procBuf b a e =
        ⟨pendingTail b, a ++ deltasJoin (completeLines b),
          e ++ snapshotsFrom a (completeLines b)⟩ := by
  intro n
  induction n with
  | zero =>
    intro b a e hb _ _
    have hb0 : b = [] := List.length_eq_zero.mp (Nat.le_zero.mp hb)
    subst hb0
    rw [procBuf_no_newline (b := []) rfl, completeLines_nil, pendingTail_nil]
    simp [deltasJoin, snapshotsFrom]
  | succ n ih =>
    intro b a e hb hok hdone
    cases hbr : breakAtNewline b with
    | none =>
      rw [procBuf_no_newline hbr, completeLines_none hbr, pendingTail_none hbr]
      simp [deltasJoin, snapshotsFrom]
    | some p =>
      obtain ⟨l, r⟩ := p
      have hlen := breakAtNewline_some_length hbr
      have hr : r.length ≤ n := by omega
      rw [completeLines_some hbr] at hok hdone ⊢
      rw [pendingTail_some hbr] at hdone ⊢
      rcases OkLines.cons_inv hok with ⟨hg, hrest⟩ | ⟨hd, hclr⟩
      · rcases hclass : classifyLine (stripCR l) with _ | _ | _ | _ | d
        · rw [procBuf_skip hbr hclass]
          rw [ih r a e hr hrest
            (fun hdr => hdone ⟨hdr.choose, List.mem_cons_of_mem l hdr.choose_spec.1,
              hdr.choose_spec.2⟩)]
          have hld : lineDelta l = [] := by
            unfold lineDelta
            rw [hclass]
            rfl
          have hed : emitsDelta l = false := by
            unfold emitsDelta
            rw [hclass]
            rfl
          rw [deltasJoin_cons]
          simp [snapshotsFrom, hed, hld]
        · exfalso
          unfold nonBreaking at hg
          rw [hclass] at hg
          simp [LineResult.continues] at hg
        · rw [procBuf_noContent hbr hclass]
          rw [ih r a e hr hrest
            (fun hdr => hdone ⟨hdr.choose, List.mem_cons_of_mem l hdr.choose_spec.1,
              hdr.choose_spec.2⟩)]
          have hld : lineDelta l = [] := by
            unfold lineDelta
            rw [hclass]
            rfl
          have hed : emitsDelta l = false := by
            unfold emitsDelta
            rw [hclass]
            rfl
          rw [deltasJoin_cons]
          simp [snapshotsFrom, hed, hld]
        · exfalso
          unfold nonBreaking at hg
          rw [hclass] at hg
          simp [LineResult.continues] at hg
        · rw [procBuf_delta hbr hclass]
          rw [ih r (a ++ d) (e ++ [a ++ d]) hr hrest
            (fun hdr => hdone ⟨hdr.choose, List.mem_cons_of_mem l hdr.choose_spec.1,
              hdr.choose_spec.2⟩)]
          have hld : lineDelta l = d := by
            unfold lineDelta
            rw [hclass]
            rfl
          have hed : emitsDelta l = true := by
            unfold emitsDelta
            rw [hclass]
            rfl
          rw [deltasJoin_cons, hld]
          simp [snapshotsFrom, hed, hld, List.append_assoc]
      · rw [procBuf_done hbr hd]
        have hpt : pendingTail r = [] :=
          hdone ⟨l, List.mem_cons_self l _, hd⟩
        have hrecon := joinNL_reconstruct r
        rw [hclr, hpt] at hrecon
        have hr0 : r = [] := by simpa [joinNL] using hrecon.symm
        subst hr0
        have hld : lineDelta l = [] := by
          unfold lineDelta
          rw [hd]
          rfl
        have hed : emitsDelta l = false := by
          unfold emitsDelta
          rw [hd]
          rfl
        rw [hclr, pendingTail_nil]
        rw [deltasJoin_cons, hld]
        simp [deltasJoin, snapshotsFrom, hed]

theorem procBuf_main {b a : List Char} {e : List (List Char)}
    (hok : OkLines (completeLines b))
    (hdone : hasDoneLine (completeLines b) → pendingTail b = []) :
    procBuf b a e =
      ⟨pendingTail b, a ++ deltasJoin (completeLines b),
        e ++ snapshotsFrom a (completeLines b)⟩ :=
  procBuf_main_aux b.length b a e le_rfl hok hdone

/-- The parser state reached after consuming a non-stalling prefix `p` of
the stream from the initial state. -/
def stateOf (p : List Char) : StreamState :=
  ⟨pendingTail p, deltasJoin (completeLines p),
    snapshotsFrom [] (completeLines p)⟩

theorem hasDoneLine_mono {xs ys : List (List Char)}
    (h : hasDoneLine xs) : hasDoneLine (xs ++ ys) := by
  obtain ⟨l, hl, hld⟩ := h
  exact ⟨l, List.mem_append_left ys hl, hld⟩

theorem processChunk_stateOf {p c : List Char}
    (hok : OkLines (completeLines (p ++ c)))
    (hdone : hasDoneLine (completeLines (p ++ c)) → pendingTail (p ++ c) = []) :
    processChunk (stateOf p) c = stateOf (p ++ c) := by
  have hcl := completeLines_append p c
  have hpt := pendingTail_append p c
  have hok2 : OkLines (completeLines (pendingTail p ++ c)) :=
    OkLines.append_right (hcl ▸ hok)
  have hdone2 : hasDoneLine (completeLines (pendingTail p ++ c)) →
      pendingTail (pendingTail p ++ c) = [] := by
    intro hd
    rw [← hpt]
    apply hdone
    rw [hcl]
    obtain ⟨l, hl, hld⟩ := hd
    exact ⟨l, List.mem_append_right _ hl, hld⟩
  show procBuf (pendingTail p ++ c) (deltasJoin (completeLines p))
      (snapshotsFrom [] (completeLines p)) = stateOf (p ++ c)
  rw [procBuf_main hok2 hdone2]
  unfold stateOf
  rw [hcl, hpt, deltasJoin_append, snapshotsFrom_append]
  simp

theorem runFrom_stateOf :
    ∀ (cs : List (List Char)) (p : List Char),
      OkLines (completeLines (p ++ cs.flatten)) →
      (hasDoneLine (completeLines (p ++ cs.flatten)) →
        pendingTail (p ++ cs.flatten) = []) →
      List.foldl processChunk (stateOf p) cs = stateOf (p ++ cs.flatten) := by
  intro cs
  induction cs with
  | nil =>
    intro p _ _
    simp [List.foldl]
  | cons c cs ih =>
    intro p hok hdone
    have hassoc : p ++ (c :: cs).flatten = (p ++ c) ++ cs.flatten := by
      simp [List.flatten_cons, List.append_assoc]
    rw [hassoc] at hok hdone
    have hcl2 := completeLines_append (p ++ c) cs.flatten
    have hpt2 := pendingTail_append (p ++ c) cs.flatten
    have hok1 : OkLines (completeLines (p ++ c)) :=
      OkLines.append_left (hcl2 ▸ hok)
    have hdone1 : hasDoneLine (completeLines (p ++ c)) →
        pendingTail (p ++ c) = [] := by
      intro hd
      have hok' : OkLines (completeLines (p ++ c) ++
          completeLines (pendingTail (p ++ c) ++ cs.flatten)) := hcl2 ▸ hok
      have hys : completeLines (pendingTail (p ++ c) ++ cs.flatten) = [] :=
        OkLines.done_closes hok' hd
      have hptz : pendingTail ((p ++ c) ++ cs.flatten) = [] := by
        apply hdone
        rw [hcl2]
        exact hasDoneLine_mono hd
      rw [hpt2] at hptz
      have hrecon := joinNL_reconstruct (pendingTail (p ++ c) ++ cs.flatten)
      rw [hys, hptz] at hrecon
      have : pendingTail (p ++ c) ++ cs.flatten = [] := by
        simpa [joinNL] using hrecon.symm
      exact (List.append_eq_nil.mp this).1
    show List.foldl processChunk (processChunk (stateOf p) c) cs = _
    rw [processChunk_stateOf hok1 hdone1, ih (p ++ c) hok hdone, hassoc]
/-! ### C1: the well-formed stream -/

/-- The expected snapshot sequence for deltas `ds` starting from accumulated
text `a`: each delta extends the running concatenation by one step. -/
def snapshotsAccum (a : List Char) : List (List Char) → List (List Char)
  | [] => []
  | d :: ds => (a ++ d) :: snapshotsAccum (a ++ d) ds

theorem snapshotsAccum_formula :
    ∀ (ds : List (List Char)) (a : List Char),
      snapshotsAccum a ds
        = (List.range ds.length).map (fun i => a ++ (ds.take (i + 1)).flatten) := by
  intro ds
  induction ds with
  | nil => intro a; simp [snapshotsAccum]
  | cons d ds ih =>
    intro a
    simp only [snapshotsAccum, List.length_cons, List.range_succ_eq_map,
      List.map_cons, List.map_map]
    congr 1
    · simp
    · rw [ih (a ++ d)]
      apply List.map_congr_left
      intro i _
      simp [Function.comp, List.take_succ_cons, List.flatten_cons,
        List.append_assoc]

theorem okLines_of_good_then_done {dl : List Char}
    (hd : classifyLine (stripCR dl) = .done) :
    ∀ (ls : List (List Char)), (∀ l ∈ ls, nonBreaking l = true) →
      OkLines (ls ++ [dl]) := by
  intro ls
  induction ls with
  | nil => intro _; exact .doneLast hd
  | cons l ls ih =>
    intro h
    exact .consGood (h l (List.mem_cons_self l ls))
      (ih (fun x hx => h x (List.mem_cons_of_mem l hx)))

theorem zipProps :
    ∀ (lines ds : List (List Char)), lines.length = ds.length →
      (∀ p ∈ lines.zip ds, classifyLine (stripCR p.1) = LineResult.delta p.2) →
      (∀ l ∈ lines, nonBreaking l = true) ∧
      deltasJoin lines = ds.flatten ∧
      (∀ a, snapshotsFrom a lines = snapshotsAccum a ds) := by
  intro lines
  induction lines with
  | nil =>
    intro ds hlen _
    have hds : ds = [] := List.length_eq_zero.mp hlen.symm
    subst hds
    refine ⟨fun l hl => absurd hl (List.not_mem_nil l), rfl, fun a => rfl⟩
  | cons l lines ih =>
    intro ds hlen hzip
    cases ds with
    | nil => simp at hlen
    | cons d ds =>
      have hld : classifyLine (stripCR l) = .delta d := by
        have : (l, d) ∈ (l :: lines).zip (d :: ds) := by
          rw [List.zip_cons_cons]
          exact List.mem_cons_self (l, d) _
        exact hzip (l, d) this
      have hrest : ∀ p ∈ lines.zip ds,
          classifyLine (stripCR p.1) = LineResult.delta p.2 := by
        intro p hp
        apply hzip
        rw [List.zip_cons_cons]
        exact List.mem_cons_of_mem (l, d) hp
      have hlen2 : lines.length = ds.length := by
        simp only [List.length_cons] at hlen
        omega
      obtain ⟨ihg, ihd, ihs⟩ := ih ds hlen2 hrest
      have hgl : nonBreaking l = true := by
        unfold nonBreaking
        rw [hld]
        rfl
      have hldel : lineDelta l = d := by
        unfold lineDelta
        rw [hld]
        rfl
      have hemit : emitsDelta l = true := by
        unfold emitsDelta
        rw [hld]
        rfl
      refine ⟨?_, ?_, ?_⟩
      · intro x hx
        rcases List.mem_cons.mp hx with rfl | hx2
        · exact hgl
        · exact ihg x hx2
      · rw [deltasJoin_cons, hldel, ihd, List.flatten_cons]
      · intro a
        simp only [snapshotsFrom, snapshotsAccum, hemit, if_pos, hldel,
          ihs (a ++ d)]

theorem initState_eq_stateOf : initState = stateOf [] := by
  unfold initState stateOf
  rw [completeLines_nil, pendingTail_nil]
  rfl

/-- C1: a stream whose chunks concatenate to well-formed `data:` lines
(the i-th carrying delta `ds i`) followed by the sentinel line is parsed,
under any chunking whatsoever, into exactly `ds.length` emitted snapshots,
the i-th being the concatenation of the first `i + 1` deltas; the whole
accumulated text is the concatenation of all deltas, and the buffer is fully
consumed when the sentinel stops the loop (nothing after the sentinel line's
payload is processed). -/
theorem claim1_wellformed_stream (lines ds : List (List Char)) (dl : List Char)
    (cs : List (List Char))
    (hlen : lines.length = ds.length)
    (hzip : ∀ p ∈ lines.zip ds, classifyLine (stripCR p.1) = LineResult.delta p.2)
    (hnl : ∀ l ∈ lines, '\n' ∉ l)
    (hdl : classifyLine (stripCR dl) = LineResult.done)
    (hdlnl : '\n' ∉ dl)
    (hcs : cs.flatten = joinNL (lines ++ [dl])) :
    (runChunks cs).emitted
      = (List.range ds.length).map (fun i => ((ds.take (i + 1)).flatten)) ∧
    (runChunks cs).assistant = ds.flatten ∧
    (runChunks cs).buffer = [] := by
  obtain ⟨hgood, hdj, hsnap⟩ := zipProps lines ds hlen hzip
  have hnlAll : ∀ l ∈ lines ++ [dl], '\n' ∉ l := by
    intro l hl
    rcases List.mem_append.mp hl with h | h
    · exact hnl l h
    · simp only [List.mem_singleton] at h
      subst h
      exact hdlnl
  obtain ⟨hcl, hpt⟩ := completeLines_joinNL (lines ++ [dl]) hnlAll
  have hok : OkLines (completeLines ([] ++ cs.flatten)) := by
    rw [List.nil_append, hcs, hcl]
    exact okLines_of_good_then_done hdl lines hgood
  have hdone : hasDoneLine (completeLines ([] ++ cs.flatten)) →
      pendingTail ([] ++ cs.flatten) = [] := by
    intro _
    rw [List.nil_append, hcs, hpt]
  have hrun : runChunks cs = stateOf (joinNL (lines ++ [dl])) := by
    unfold runChunks
    rw [initState_eq_stateOf, runFrom_stateOf cs [] hok hdone,
      List.nil_append, hcs]
  have hedl : emitsDelta dl = false := by
    unfold emitsDelta
    rw [hdl]
    rfl
  have hldl : lineDelta dl = [] := by
    unfold lineDelta
    rw [hdl]
    rfl
  refine ⟨?_, ?_, ?_⟩
  · rw [hrun]
    show snapshotsFrom [] (completeLines (joinNL (lines ++ [dl]))) = _
    rw [hcl, snapshotsFrom_append, hsnap []]
    simp only [snapshotsFrom, hedl, if_neg, Bool.false_eq_true,
      not_false_iff, List.append_nil]
    rw [snapshotsAccum_formula]
    simp
  · rw [hrun]
    show deltasJoin (completeLines (joinNL (lines ++ [dl]))) = _
    rw [hcl, deltasJoin_append, hdj, deltasJoin_cons, hldl]
    simp [deltasJoin]
  · rw [hrun]
    show pendingTail (joinNL (lines ++ [dl])) = []
    exact hpt

def claim1LineA : List Char :=
  "data: \x7b\"choices\":[\x7b\"delta\":\x7b\"content\":\"Hel\"\x7d\x7d]\x7d".toList

def claim1LineB : List Char :=
  "data: \x7b\"choices\":[\x7b\"delta\":\x7b\"content\":\"lo!\"\x7d\x7d]\x7d".toList

def claim1Sentinel : List Char := "data: [DONE]".toList

/-- Concrete stream for the C1 witness, cut into three chunks at offsets
falling inside lines. -/
def claim1Stream : List Char :=
  joinNL ([claim1LineA, claim1LineB] ++ [claim1Sentinel])

theorem claim1_witness :
    (runChunks [claim1Stream.take 17, (claim1Stream.drop 17).take 41,
        (claim1Stream.drop 17).drop 41]).emitted
      = (List.range 2).map
          (fun i => (([("Hel".toList), ("lo!".toList)].take (i + 1)).flatten)) ∧
    (runChunks [claim1Stream.take 17, (claim1Stream.drop 17).take 41,
        (claim1Stream.drop 17).drop 41]).assistant
      = [("Hel".toList), ("lo!".toList)].flatten ∧
    (runChunks [claim1Stream.take 17, (claim1Stream.drop 17).take 41,
        (claim1Stream.drop 17).drop 41]).buffer = [] :=
  claim1_wellformed_stream [claim1LineA, claim1LineB]
    [("Hel".toList), ("lo!".toList)] claim1Sentinel
    [claim1Stream.take 17, (claim1Stream.drop 17).take 41,
      (claim1Stream.drop 17).drop 41]
    (by decide) (by decide) (by decide) (by decide) (by decide) (by decide)
/-! ### Roles and the user_roles table

The migration declares `app_role AS ENUM ('admin','legal_analyst','user')`
and `user_roles (user_id, role, UNIQUE (user_id, role))`; rows are modelled
as (user, role) pairs (the surrogate uuid primary key plays no role in any
claim), so the UNIQUE constraint is exactly `List.Nodup`. -/

inductive AppRole where
  | admin
  | legal_analyst
  | user
deriving DecidableEq, Repr

structure RoleRow where
  user_id : Nat
  role : AppRole
deriving DecidableEq, Repr

/-- The UNIQUE (user_id, role) constraint of the user_roles table: the
schema only forbids duplicate (user, role) pairs. -/
def rolesUniqueOk (rows : List RoleRow) : Prop := rows.Nodup

/-- The roles recorded for a user (a select on user_roles filtered by
user_id). -/
def rolesOf (rows : List RoleRow) (u : Nat) : List AppRole :=
  (rows.filter (fun r => r.user_id == u)).map (fun r => r.role)

/-- The has_role SQL function: EXISTS a row with this user and role. -/
def hasRole (rows : List RoleRow) (u : Nat) (r : AppRole) : Bool :=
  rows.any (fun row => row.user_id == u && row.role == r)

/-- The handle_new_user trigger body, restricted to the role table: a new
account gets exactly one inserted role row, the default role `'user'`. -/
def handleNewUser (rows : List RoleRow) (u : Nat) : List RoleRow :=
  rows ++ [⟨u, .user⟩]

/-- Observable outcome of `handleRoleChange` (silent return, own-role toast,
error toast after the delete call, error toast after the insert call, or the
success toast). -/
inductive RoleChangeRes where
  | noop
  | ownRoleRefused
  | deleteFailed
  | insertFailed
  | success
deriving DecidableEq, Repr

/-- The `handleRoleChange` handler of the Users view: guard on the acting
role and on self-targeting, then delete every role row of the target, then
insert the new role row.  Each of the two database statements may fail
(injected by the two flags); a single SQL statement is atomic, so a failed
delete changes nothing, but the pair of statements is not wrapped in a
transaction. -/
def handleRoleChange (currentRole : Option AppRole) (currentUserId : Option Nat)
    (targetId : Nat) (newRole : AppRole) (rows : List RoleRow)
    (deleteErr insertErr : Bool) : List RoleRow × RoleChangeRes :=
  if ¬ currentRole = some .admin then (rows, .noop)
  else if some targetId = currentUserId then (rows, .ownRoleRefused)
  else if deleteErr then (rows, .deleteFailed)
  else
    let afterDelete := rows.filter (fun r => !(r.user_id == targetId))
    if insertErr then (afterDelete, .insertFailed)
    else (afterDelete ++ [⟨targetId, newRole⟩], .success)

theorem rolesOf_append (xs ys : List RoleRow) (u : Nat) :
    rolesOf (xs ++ ys) u = rolesOf xs u ++ rolesOf ys u := by
  simp [rolesOf, List.filter_append]

theorem rolesOf_filter_self (rows : List RoleRow) (t : Nat) :
    rolesOf (rows.filter (fun r => !(r.user_id == t))) t = [] := by
  induction rows with
  | nil => rfl
  | cons r rows ih =>
    by_cases h : r.user_id = t
    · simp only [List.filter_cons, h, beq_self_eq_true, Bool.not_true,
        Bool.false_eq_true, if_false]
      exact ih
    · have hb : (r.user_id == t) = false := beq_eq_false_iff_ne.mpr h
      simp only [List.filter_cons, hb, Bool.not_false, if_true]
      simp only [rolesOf, List.filter_cons, hb, Bool.false_eq_true, if_false]
      exact ih

theorem rolesOf_filter_other (rows : List RoleRow) (t u : Nat) (h : ¬ u = t) :
    rolesOf (rows.filter (fun r => !(r.user_id == t))) u = rolesOf rows u := by
  induction rows with
  | nil => rfl
  | cons r rows ih =>
    by_cases ht : r.user_id = t
    · have hu : (r.user_id == u) = false := by
        rw [beq_eq_false_iff_ne]
        intro he
        exact h (he ▸ ht)
      simp only [List.filter_cons, ht, beq_self_eq_true, Bool.not_true,
        Bool.false_eq_true, if_false]
      rw [ih]
      simp only [rolesOf, List.filter_cons, hu, Bool.false_eq_true, if_false]
    · have hb : (r.user_id == t) = false := beq_eq_false_iff_ne.mpr ht
      simp only [List.filter_cons, hb, Bool.not_false, if_true]
      by_cases hu : r.user_id = u
      · simp only [rolesOf, List.filter_cons, hu, beq_self_eq_true, if_true,
          List.map_cons]
        rw [← rolesOf, ← rolesOf, ih]
      · have hbu : (r.user_id == u) = false := beq_eq_false_iff_ne.mpr hu
        simp only [rolesOf, List.filter_cons, hbu, Bool.false_eq_true, if_false]
        rw [← rolesOf, ← rolesOf, ih]

theorem hasRole_iff_mem_rolesOf (rows : List RoleRow) (u : Nat) (r : AppRole) :
    hasRole rows u r = true ↔ r ∈ rolesOf rows u := by
  unfold hasRole rolesOf
  rw [List.any_eq_true]
  constructor
  · rintro ⟨row, hmem, hpred⟩
    rw [Bool.and_eq_true, beq_iff_eq, beq_iff_eq] at hpred
    rw [List.mem_map]
    refine ⟨row, ?_, hpred.2⟩
    rw [List.mem_filter, beq_iff_eq]
    exact ⟨hmem, hpred.1⟩
  · intro hmem
    rw [List.mem_map] at hmem
    obtain ⟨row, hrow, hrole⟩ := hmem
    rw [List.mem_filter, beq_iff_eq] at hrow
    refine ⟨row, hrow.1, ?_⟩
    rw [Bool.and_eq_true, beq_iff_eq, beq_iff_eq]
    exact ⟨hrow.2, hrole⟩

/-! ### C10: the role-change guards -/

/-- C10: when the acting user is not an admin, or targets their own id, the
role-change handler returns before issuing any database statement: the role
table is unchanged (for any failure-injection whatsoever) and the outcome is
the silent return or the own-role refusal toast. -/
theorem claim10_role_change_guards (currentRole : Option AppRole)
    (currentUserId : Option Nat) (targetId : Nat) (newRole : AppRole)
    (rows : List RoleRow) (deleteErr insertErr : Bool)
    (h : ¬ currentRole = some AppRole.admin ∨ some targetId = currentUserId) :
    (handleRoleChange currentRole currentUserId targetId newRole rows
      deleteErr insertErr).1 = rows ∧
    ((handleRoleChange currentRole currentUserId targetId newRole rows
        deleteErr insertErr).2 = RoleChangeRes.noop ∨
     (handleRoleChange currentRole currentUserId targetId newRole rows
        deleteErr insertErr).2 = RoleChangeRes.ownRoleRefused) := by
  unfold handleRoleChange
  rcases h with h | h
  · rw [if_pos h]
    exact ⟨rfl, Or.inl rfl⟩
  · by_cases h1 : currentRole = some AppRole.admin
    · rw [if_neg (not_not_intro h1), if_pos h]
      exact ⟨rfl, Or.inr rfl⟩
    · rw [if_pos h1]
      exact ⟨rfl, Or.inl rfl⟩

theorem claim10_witness :
    (handleRoleChange (some AppRole.legal_analyst) (some 0) 1 AppRole.admin
      [⟨1, AppRole.user⟩] false false).1 = [⟨1, AppRole.user⟩] ∧
    ((handleRoleChange (some AppRole.legal_analyst) (some 0) 1 AppRole.admin
        [⟨1, AppRole.user⟩] false false).2 = RoleChangeRes.noop ∨
     (handleRoleChange (some AppRole.legal_analyst) (some 0) 1 AppRole.admin
        [⟨1, AppRole.user⟩] false false).2 = RoleChangeRes.ownRoleRefused) :=
  claim10_role_change_guards (some AppRole.legal_analyst) (some 0) 1
    AppRole.admin [⟨1, AppRole.user⟩] false false (Or.inl (by decide))

/-! ### C4: error atomicity of the role change -/

/-- C4 counterexample: with one user 1 holding the default role, an admin's
role change on user 1 whose delete succeeds but whose insert fails reports
an error toast, yet user 1's persisted role assignment has changed from
`[user]` to `[]` — the prior state is not left intact. -/
theorem claim4_counterexample :
    (handleRoleChange (some AppRole.admin) (some 0) 1 AppRole.admin
        [⟨1, AppRole.user⟩] false true).2 = RoleChangeRes.insertFailed ∧
    rolesOf (handleRoleChange (some AppRole.admin) (some 0) 1 AppRole.admin
        [⟨1, AppRole.user⟩] false true).1 1 = [] ∧
    rolesOf [⟨1, AppRole.user⟩] 1 = [AppRole.user] := by
  decide

/-- C4 amended: a failing role change leaves the role table unchanged in
every failure case except the insert failure: a guard exit or a failed
delete changes nothing, but an insert failure after the successful delete
leaves the target with zero role rows (rows of other users are untouched in
every case). -/
theorem claim4_amended (currentRole : Option AppRole)
    (currentUserId : Option Nat) (targetId : Nat) (newRole : AppRole)
    (rows : List RoleRow) (deleteErr insertErr : Bool) (u : Nat) :
    ((handleRoleChange currentRole currentUserId targetId newRole rows
        deleteErr insertErr).2 ≠ RoleChangeRes.success →
     (handleRoleChange currentRole currentUserId targetId newRole rows
        deleteErr insertErr).2 ≠ RoleChangeRes.insertFailed →
     (handleRoleChange currentRole currentUserId targetId newRole rows
        deleteErr insertErr).1 = rows) ∧
    ((handleRoleChange currentRole currentUserId targetId newRole rows
        deleteErr insertErr).2 = RoleChangeRes.insertFailed →
     rolesOf (handleRoleChange currentRole currentUserId targetId newRole rows
        deleteErr insertErr).1 targetId = []) ∧
    ((handleRoleChange currentRole currentUserId targetId newRole rows
        deleteErr insertErr).2 = RoleChangeRes.insertFailed → ¬ u = targetId →
     rolesOf (handleRoleChange currentRole currentUserId targetId newRole rows
        deleteErr insertErr).1 u = rolesOf rows u) := by
  unfold handleRoleChange
  by_cases h1 : ¬ currentRole = some AppRole.admin
  · rw [if_pos h1]
    refine ⟨fun _ _ => rfl, ?_, ?_⟩
    · intro h
      simp at h
    · intro h _
      simp at h
  · rw [if_neg h1]
    by_cases h2 : some targetId = currentUserId
    · rw [if_pos h2]
      refine ⟨fun _ _ => rfl, ?_, ?_⟩
      · intro h
        simp at h
      · intro h _
        simp at h
    · rw [if_neg h2]
      by_cases h3 : deleteErr = true
      · rw [if_pos h3]
        refine ⟨fun _ _ => rfl, ?_, ?_⟩
        · intro h
          simp at h
        · intro h _
          simp at h
      · rw [if_neg h3]
        simp only
        by_cases h4 : insertErr = true
        · rw [if_pos h4]
          refine ⟨?_, fun _ => rolesOf_filter_self rows targetId,
            fun _ hu => rolesOf_filter_other rows targetId u hu⟩
          intro _ hne
          exact absurd rfl hne
        · rw [if_neg h4]
          refine ⟨?_, ?_, ?_⟩
          · intro hne _
            exact absurd rfl hne
          · intro h
            simp at h
          · intro h _
            simp at h

theorem claim4_witness :
    rolesOf (handleRoleChange (some AppRole.admin) (some 0) 1 AppRole.admin
      [⟨1, AppRole.user⟩, ⟨2, AppRole.admin⟩] false true).1 1 = [] ∧
    rolesOf (handleRoleChange (some AppRole.admin) (some 0) 1 AppRole.admin
      [⟨1, AppRole.user⟩, ⟨2, AppRole.admin⟩] false true).1 2
      = rolesOf [⟨1, AppRole.user⟩, ⟨2, AppRole.admin⟩] 2 := by
  have h := claim4_amended (some AppRole.admin) (some 0) 1 AppRole.admin
    [⟨1, AppRole.user⟩, ⟨2, AppRole.admin⟩] false true 2
  exact ⟨h.2.1 (by decide), h.2.2 (by decide) (by decide)⟩

/-! ### C3: the singular-role invariant -/

/-- C3 counterexample: the user_roles schema constraint (UNIQUE (user_id,
role)) accepts a state in which user 0 holds two distinct roles at once, so
the backend does not enforce a single role per user. -/
theorem claim3_counterexample :
    rolesUniqueOk [⟨0, AppRole.admin⟩, ⟨0, AppRole.user⟩] ∧
    rolesOf [⟨0, AppRole.admin⟩, ⟨0, AppRole.user⟩] 0
      = [AppRole.admin, AppRole.user] := by
  constructor
  · show List.Nodup _
    decide
  · decide

/-- C3 amended: the role enum has the three values, account creation assigns
exactly the default role `'user'` to the fresh user, and a role change whose
delete and insert both succeed leaves the target with exactly the one new
role; but the schema itself only forbids duplicate (user, role) pairs, and a
failed insert after a successful delete can leave a user with no role. -/
theorem claim3_amended (rows : List RoleRow) (u : Nat)
    (currentRole : Option AppRole) (currentUserId : Option Nat)
    (targetId : Nat) (newRole : AppRole) :
    (rolesOf rows u = [] → rolesOf (handleNewUser rows u) u = [AppRole.user]) ∧
    ((handleRoleChange currentRole currentUserId targetId newRole rows
        false false).2 = RoleChangeRes.success →
     rolesOf (handleRoleChange currentRole currentUserId targetId newRole rows
        false false).1 targetId = [newRole]) := by
  constructor
  · intro h0
    unfold handleNewUser
    rw [rolesOf_append, h0]
    simp [rolesOf]
  · intro hs
    unfold handleRoleChange at hs ⊢
    by_cases h1 : ¬ currentRole = some AppRole.admin
    · rw [if_pos h1] at hs
      exact nomatch hs
    · rw [if_neg h1] at hs ⊢
      by_cases h2 : some targetId = currentUserId
      · rw [if_pos h2] at hs
        exact nomatch hs
      · rw [if_neg h2] at hs ⊢
        simp only [Bool.false_eq_true, if_false]
        rw [rolesOf_append, rolesOf_filter_self]
        simp [rolesOf]

theorem claim3_witness :
    rolesOf (handleNewUser [] 5) 5 = [AppRole.user] ∧
    rolesOf (handleRoleChange (some AppRole.admin) (some 0) 1
      AppRole.legal_analyst [⟨1, AppRole.user⟩] false false).1 1
      = [AppRole.legal_analyst] :=
  ⟨(claim3_amended [] 5 none none 0 AppRole.user).1 rfl,
   (claim3_amended [⟨1, AppRole.user⟩] 0 (some AppRole.admin) (some 0) 1
      AppRole.legal_analyst).2 (by decide)⟩
/-! ### Legal documents: schema row and the select visibility policy -/

inductive LegalDomain where
  | criminal
  | civil
  | corporate
  | constitutional
  | labor
  | tax
  | property
  | family
  | environmental
  | intellectual_property
  | general
deriving DecidableEq, Repr

/-- A legal_documents row.  The `validated` column has DEFAULT false and is
always written explicitly by the application, so it is modelled as `Bool`. -/
structure LegalDoc where
  title : List Char
  description : Option (List Char)
  content : Option (List Char)
  file_path : Option (List Char)
  domain : LegalDomain
  jurisdiction : Option (List Char)
  year : Option Int
  tags : Option (List (List Char))
  uploaded_by : Option Nat
  validated : Bool
  validated_by : Option Nat
deriving DecidableEq, Repr

/-- The RLS SELECT policy "All authenticated users can view validated
documents": `validated = true OR uploaded_by = auth.uid() OR
has_role(auth.uid(),'admin') OR has_role(auth.uid(),'legal_analyst')`. -/
def docSelectVisible (rows : List RoleRow) (uid : Nat) (d : LegalDoc) : Bool :=
  d.validated || d.uploaded_by == some uid
    || hasRole rows uid .admin || hasRole rows uid .legal_analyst

/-- The rows returned by a select on legal_documents under the policy. -/
def visibleDocs (rows : List RoleRow) (uid : Nat) (docs : List LegalDoc) :
    List LegalDoc :=
  docs.filter (docSelectVisible rows uid)

/-- C5: an unvalidated document uploaded by `u1` is excluded from the select
of a user who holds exactly the plain `'user'` role and is not `u1`, while
the uploader and any admin or legal analyst see it. -/
theorem claim5_document_visibility (rows : List RoleRow) (d : LegalDoc)
    (docs : List LegalDoc) (u1 u2 ua ub : Nat)
    (hval : d.validated = false) (hup : d.uploaded_by = some u1) :
    (rolesOf rows u2 = [AppRole.user] → ¬ u2 = u1 →
      d ∉ visibleDocs rows u2 docs) ∧
    (d ∈ docs → d ∈ visibleDocs rows u1 docs) ∧
    (hasRole rows ua AppRole.admin = true → d ∈ docs →
      d ∈ visibleDocs rows ua docs) ∧
    (hasRole rows ub AppRole.legal_analyst = true → d ∈ docs →
      d ∈ visibleDocs rows ub docs) := by
  refine ⟨?_, ?_, ?_, ?_⟩
  · intro hrole hne hmem
    rw [visibleDocs, List.mem_filter] at hmem
    obtain ⟨-, hvis⟩ := hmem
    unfold docSelectVisible at hvis
    rw [hval, hup] at hvis
    simp only [Bool.false_or, Bool.or_eq_true, beq_iff_eq,
      Option.some.injEq] at hvis
    rcases hvis with (h | h) | h
    · exact hne h.symm
    · have hm : AppRole.admin ∈ rolesOf rows u2 :=
        (hasRole_iff_mem_rolesOf rows u2 AppRole.admin).mp h
      rw [hrole] at hm
      simp at hm
    · have hm : AppRole.legal_analyst ∈ rolesOf rows u2 :=
        (hasRole_iff_mem_rolesOf rows u2 AppRole.legal_analyst).mp h
      rw [hrole] at hm
      simp at hm
  · intro hmem
    rw [visibleDocs, List.mem_filter]
    refine ⟨hmem, ?_⟩
    unfold docSelectVisible
    rw [hup]
    simp
  · intro hadm hmem
    rw [visibleDocs, List.mem_filter]
    refine ⟨hmem, ?_⟩
    unfold docSelectVisible
    rw [hadm]
    simp
  · intro hana hmem
    rw [visibleDocs, List.mem_filter]
    refine ⟨hmem, ?_⟩
    unfold docSelectVisible
    rw [hana]
    simp

/-- The documents fixture of the spec's testable property. -/
def leaseAct : LegalDoc :=
  { title := "Lease Act".toList, description := none, content := none,
    file_path := none, domain := .property, jurisdiction := none,
    year := none, tags := none, uploaded_by := some 1, validated := false,
    validated_by := none }

def fixtureRoles : List RoleRow :=
  [⟨1, .user⟩, ⟨2, .user⟩, ⟨3, .admin⟩, ⟨4, .legal_analyst⟩]

theorem claim5_witness :
    leaseAct ∉ visibleDocs fixtureRoles 2 [leaseAct] ∧
    leaseAct ∈ visibleDocs fixtureRoles 1 [leaseAct] ∧
    leaseAct ∈ visibleDocs fixtureRoles 3 [leaseAct] ∧
    leaseAct ∈ visibleDocs fixtureRoles 4 [leaseAct] := by
  obtain ⟨h1, h2, h3, h4⟩ := claim5_document_visibility fixtureRoles leaseAct
    [leaseAct] 1 2 3 4 rfl rfl
  exact ⟨h1 (by decide) (by decide), h2 (List.mem_cons_self leaseAct []),
    h3 (by decide) (List.mem_cons_self leaseAct []),
    h4 (by decide) (List.mem_cons_self leaseAct [])⟩

/-! ### Conversations, messages and the cascade delete -/

structure ConvRow where
  id : Nat
  user_id : Nat
deriving DecidableEq, Repr

structure MsgRow where
  id : Nat
  conversation_id : Nat
  role : List Char
  content : List Char
deriving DecidableEq, Repr

structure ChatDb where
  conversations : List ConvRow
  messages : List MsgRow
deriving DecidableEq, Repr

/-- Referential integrity of messages.conversation_id REFERENCES
conversations(id): every message row points at an existing conversation. -/
def msgFkOk (db : ChatDb) : Prop :=
  ∀ m ∈ db.messages, ∃ c ∈ db.conversations, c.id = m.conversation_id

/-- `deleteConversation` of the chat view (`delete().eq('id', id)`) together
with the schema's ON DELETE CASCADE on messages.conversation_id: removing
the conversation rows with the given id removes every message row
referencing that id. -/
def deleteConversation (db : ChatDb) (cid : Nat) : ChatDb :=
  { conversations := db.conversations.filter (fun c => !(c.id == cid)),
    messages := db.messages.filter (fun m => !(m.conversation_id == cid)) }

/-- The select used to check the cascade: messages of one conversation. -/
def messagesOf (db : ChatDb) (cid : Nat) : List MsgRow :=
  db.messages.filter (fun m => m.conversation_id == cid)

/-- A message insert under the RLS INSERT policy on messages: the targeted
conversation must exist and belong to the caller, otherwise the insert is
rejected and the state unchanged. -/
def insertMessage (db : ChatDb) (uid cid mid : Nat)
    (role content : List Char) : ChatDb :=
  if db.conversations.any (fun c => c.id == cid && c.user_id == uid) then
    { db with messages := db.messages ++ [⟨mid, cid, role, content⟩] }
  else db

/-- C6: after deleting a conversation, zero messages remain for that
conversation id; the cascade preserves referential integrity, as does any
policy-checked message insert — every message always references a live
conversation. -/
theorem claim6_cascade_delete (db : ChatDb) (cid uid cid2 mid : Nat)
    (role content : List Char) :
    messagesOf (deleteConversation db cid) cid = [] ∧
    (msgFkOk db → msgFkOk (deleteConversation db cid)) ∧
    (msgFkOk db → msgFkOk (insertMessage db uid cid2 mid role content)) := by
  refine ⟨?_, ?_, ?_⟩
  · unfold messagesOf deleteConversation
    simp only
    rw [List.filter_eq_nil_iff]
    intro m hm
    rw [List.mem_filter] at hm
    obtain ⟨-, hmne⟩ := hm
    simp only [Bool.not_eq_eq_eq_not, Bool.not_true] at hmne
    rw [hmne]
    simp
  · intro hfk m hm
    unfold deleteConversation at hm ⊢
    simp only at hm ⊢
    rw [List.mem_filter] at hm
    obtain ⟨hmem, hmne⟩ := hm
    obtain ⟨c, hc, hcid⟩ := hfk m hmem
    refine ⟨c, ?_, hcid⟩
    rw [List.mem_filter]
    refine ⟨hc, ?_⟩
    rw [hcid]
    exact hmne
  · intro hfk m hm
    unfold insertMessage at hm ⊢
    by_cases hck : db.conversations.any
        (fun c => c.id == cid2 && c.user_id == uid) = true
    · rw [if_pos hck] at hm
      simp only at hm
      rw [if_pos hck]
      simp only
      rcases List.mem_append.mp hm with hm2 | hm2
      · exact hfk m hm2
      · simp only [List.mem_singleton] at hm2
        subst hm2
        rw [List.any_eq_true] at hck
        obtain ⟨c, hc, hpred⟩ := hck
        rw [Bool.and_eq_true, beq_iff_eq, beq_iff_eq] at hpred
        exact ⟨c, hc, hpred.1⟩
    · rw [if_neg hck] at hm
      rw [if_neg hck]
      exact hfk m hm

def fixtureChatDb : ChatDb :=
  { conversations := [⟨10, 1⟩, ⟨11, 1⟩, ⟨12, 2⟩],
    messages := [⟨100, 10, "user".toList, "hi".toList⟩,
      ⟨101, 10, "assistant".toList, "hello".toList⟩,
      ⟨102, 11, "user".toList, "other".toList⟩] }

theorem claim6_witness :
    messagesOf (deleteConversation fixtureChatDb 10) 10 = [] ∧
    msgFkOk (deleteConversation fixtureChatDb 10) ∧
    msgFkOk (insertMessage fixtureChatDb 1 11 103 "user".toList "x".toList) := by
  have h := claim6_cascade_delete fixtureChatDb 10 1 11 103 "user".toList
    "x".toList
  refine ⟨h.1, h.2.1 ?_, h.2.2 ?_⟩ <;> (unfold msgFkOk; decide)

/-! ### Document upload: the validated flag -/

/-- Model of `parseInt(uploadYear)`: optional surrounding whitespace and
sign, then a maximal run of decimal digits; no digit means NaN, which is
stored as null. -/
def jsParseInt (s : List Char) : Option Int :=
  let t := trimChars s
  let sgnAndRest : Bool × List Char :=
    match t with
    | '-' :: r => (true, r)
    | '+' :: r => (false, r)
    | _ => (false, t)
  let ds := sgnAndRest.2.takeWhile isDigitChar
  if ds = [] then none
  else
    let v : Int := Int.ofNat (ds.foldl (fun acc c => acc * 10 + (c.toNat - 48)) 0)
    some (if sgnAndRest.1 then -v else v)

/-- The `handleUpload` handler of the Documents view followed by the RLS
INSERT policy on legal_documents.  The client guard rejects a missing user
or an empty title/content (JS falsiness of the empty string); optional text
fields fall back to null when empty (`x || null`); tags are comma-split and
trimmed; the inserted row's `validated` is `role === 'admin'`; the database
accepts the insert only from an admin or analyst (policy "Admins and
analysts can insert documents"), otherwise the upload fails with no row
created. -/
def handleUpload (rows : List RoleRow) (uid : Option Nat)
    (role : Option AppRole) (uploadTitle uploadDescription : List Char)
    (uploadDomain : LegalDomain)
    (uploadJurisdiction uploadYear uploadTags uploadContent : List Char) :
    Option LegalDoc :=
  match uid with
  | none => none
  | some u =>
    if uploadTitle = [] ∨ uploadContent = [] then none
    else if hasRole rows u .admin || hasRole rows u .legal_analyst then
      some {
        title := uploadTitle,
        description :=
          if uploadDescription = [] then none else some uploadDescription,
        content := some uploadContent,
        file_path := none,
        domain := uploadDomain,
        jurisdiction :=
          if uploadJurisdiction = [] then none else some uploadJurisdiction,
        year := if uploadYear = [] then none else jsParseInt uploadYear,
        tags := if uploadTags = [] then none
          else some ((uploadTags.splitOn ',').map trimChars),
        uploaded_by := some u,
        validated := role == some .admin,
        validated_by := none }
    else none

/-- C7: whenever the upload succeeds (a document row is created), the
created row's validated flag is true exactly when the uploading user's role
is `'admin'`; the row also records the uploader. -/
theorem claim7_upload_validated_iff_admin (rows : List RoleRow)
    (uid : Option Nat) (role : Option AppRole)
    (uploadTitle uploadDescription : List Char) (uploadDomain : LegalDomain)
    (uploadJurisdiction uploadYear uploadTags uploadContent : List Char)
    (d : LegalDoc)
    (h : handleUpload rows uid role uploadTitle uploadDescription uploadDomain
      uploadJurisdiction uploadYear uploadTags uploadContent = some d) :
    (d.validated = true ↔ role = some AppRole.admin) ∧
    d.uploaded_by = uid := by
  cases uid with
  | none =>
    simp only [handleUpload] at h
    exact nomatch h
  | some u =>
    simp only [handleUpload] at h
    by_cases h1 : uploadTitle = [] ∨ uploadContent = []
    · rw [if_pos h1] at h
      exact nomatch h
    · rw [if_neg h1] at h
      by_cases h2 : (hasRole rows u .admin || hasRole rows u .legal_analyst)
          = true
      · rw [if_pos h2] at h
        injection h with h
        subst h
        constructor
        · show (role == some AppRole.admin) = true ↔ _
          exact beq_iff_eq
        · rfl
      · rw [if_neg h2] at h
        exact nomatch h

/-- The row produced by the C7 witness upload. -/
def claim7Doc : LegalDoc :=
  { title := "T".toList, description := none, content := some "C".toList,
    file_path := none, domain := .general, jurisdiction := none, year := none,
    tags := none, uploaded_by := some 3, validated := true,
    validated_by := none }

theorem claim7_witness :
    (claim7Doc.validated = true ↔ some AppRole.admin = some AppRole.admin) ∧
    claim7Doc.uploaded_by = some 3 :=
  claim7_upload_validated_iff_admin fixtureRoles (some 3)
    (some AppRole.admin) ("T".toList) [] .general [] [] [] ("C".toList)
    claim7Doc (by decide)
end LexAdvisor
